import Mathlib

/-!
Shallow embedding of `go-changed-pkgs` (cmd/main.go and internal/flag):
the change-propagation core that computes the set of Go packages impacted
by a change between two git revisions.

External collaborators (git subprocess calls, `go list`-based package
loading, mod-file parsing) are modelled as function parameters returning
`Except String _`, mirroring the Go functions' `(T, error)` results.
-/

namespace GoChangedPkgs

/-- A requirement line of a go.mod file: `modfile.Require`'s
`Mod.Path` and `Mod.Version`. -/
structure Require where
  path : String
  version : String
deriving DecidableEq, Repr

/-- The part of `modfile.File` the program uses: its `Require` list. -/
structure ModFile where
  require : List Require
deriving DecidableEq, Repr

/-- The part of `packages.Package` the program uses: the package path,
the three file lists consulted by `fileInPkg`, and the imports map.
Go's `Imports` is a `map[string]*packages.Package`; the program only reads
each entry's key (the import path) and the imported package's optional
module path (`importPkg.Module`, nil for local packages), so an entry is
modelled as a pair of the import path and an optional module path.  A Go
map iterates in unspecified order; the list order stands for one such
order, and determinism over all orders is proved separately. -/
structure GoPackage where
  pkgPath : String
  goFiles : List String
  otherFiles : List String
  embedFiles : List String
  imports : List (String × Option String)
deriving DecidableEq, Repr

/-- Go's `filepath.Base`: last element of the path after trimming
trailing slashes; `""` gives `"."`; all-slashes gives `"/"`. -/
def filepathBase (path : String) : String :=
  if path = "" then "."
  else
    let cs := path.toList.reverse.dropWhile (· == '/')
    if cs = [] then "/"
    else String.mk (cs.takeWhile (· ≠ '/')).reverse

/-- Go's `filepath.Join` restricted to lexically clean arguments (the
program joins an absolute repo dir with a git-reported relative path):
empty elements are dropped and the rest joined with `/`. -/
def filepathJoin (dir path : String) : String :=
  String.intercalate "/" (([dir, path].filter (· ≠ "")))

/-- Go's `strings.TrimSuffix(out, "\x00")`: drop one trailing NUL if
present (the separator is a single character). -/
def trimSuffixNul (cs : List Char) : List Char :=
  if cs.getLast? = some '\x00' then cs.dropLast else cs

/-- Go's `strings.Split(out, "\x00")`: split on each NUL character;
splitting the empty string yields one empty element. -/
def splitNul (cs : List Char) : List (List Char) :=
  match cs with
  | [] => [[]]
  | c :: rest =>
    match splitNul rest with
    | [] => [[]]
    | s :: ss => if c = '\x00' then [] :: s :: ss else (c :: s) :: ss

/-- `fileInPkg`: whether `path` (relative to `repoDir`) is one of the
package's build, auxiliary or embedded files, which are stored as
absolute paths. -/
def fileInPkg (pkg : GoPackage) (repoDir path : String) : Bool :=
  let absPath := filepathJoin repoDir path
  pkg.goFiles.contains absPath ||
    pkg.otherFiles.contains absPath ||
    pkg.embedFiles.contains absPath

/-- `getChangedFiles`: split the NUL-separated `git diff --name-only -z`
output, after dropping the always-present trailing NUL; a failure of the
git call is wrapped with context. -/
def getChangedFiles (diffOut : Except String String) : Except String (List String) :=
  match diffOut with
  | .error e => .error ("listing changed files: " ++ e)
  | .ok out => .ok ((splitNul (trimSuffixNul out.toList)).map String.mk)

/-- `readModFileAtRef`: fetch `ref:modPath` via git show and parse it;
either failure is wrapped with context.  `gitShow ref path` models the
`git show` call, `parse path content` models `modfile.Parse`. -/
def readModFileAtRef (gitShow : String → String → Except String String)
    (parse : String → String → Except String ModFile)
    (modPath ref : String) : Except String ModFile :=
  match gitShow ref modPath with
  | .error e => .error ("reading " ++ modPath ++ " at " ++ ref ++ ": " ++ e)
  | .ok modData =>
    match parse modPath modData with
    | .error e => .error ("parsing mod file " ++ modPath ++ " at " ++ ref ++ ": " ++ e)
    | .ok modFile => .ok modFile

/-- `readModFiles`: read the mod file at `fromRef` then at `toRef`,
returning `(new, old)`. -/
def readModFiles (gitShow : String → String → Except String String)
    (parse : String → String → Except String ModFile)
    (modPath fromRef toRef : String) : Except String (ModFile × ModFile) := do
  let oldModFile ← readModFileAtRef gitShow parse modPath fromRef
  let newModFile ← readModFileAtRef gitShow parse modPath toRef
  pure (newModFile, oldModFile)

/-- The map built from `oldModFile.Require` (`oldModMap` in
`getChangedMods`): Go map insertion in list order, so a later entry with
the same path overwrites an earlier one. -/
def lastRequire (reqs : List Require) (p : String) : Option Require :=
  reqs.foldl (fun acc req => if req.path = p then some req else acc) none

/-- The body of the loop over `curModFile.Require` in `getChangedMods`:
a requirement's module path is recorded when the old mod file also
requires it, at a different version. -/
def modsDeltaStep (oldReqs : List Require) (acc : Finset String) (req : Require) :
    Finset String :=
  match lastRequire oldReqs req.path with
  | some old => if req.version ≠ old.version then insert req.path acc else acc
  | none => acc

/-- The pure core of `getChangedMods`: for each requirement of the current
mod file, the module path is recorded when the old mod file also requires
it at a different version. -/
def modsDelta (curModFile oldModFile : ModFile) : Finset String :=
  curModFile.require.foldl (modsDeltaStep oldModFile.require) ∅

/-- `getChangedMods`: read both snapshots of the mod file and compute the
set of module paths whose version changed. -/
def getChangedMods (gitShow : String → String → Except String String)
    (parse : String → String → Except String ModFile)
    (modPath fromRef toRef : String) : Except String (Finset String) := do
  let files ← readModFiles gitShow parse modPath fromRef toRef
  pure (modsDelta files.1 files.2)

/-- The manifest test of `collectChanges`: the changed path's base name
is `go.mod`. -/
def isManifest (p : String) : Bool := filepathBase p == "go.mod"

/-- File attribution: the inner loop of `collectChanges` over `pkgs`
stops at the first package listing the file (`break` after a match), so
it is the first package whose `fileInPkg` holds, if any. -/
def findOwner (pkgs : List GoPackage) (repoDir path : String) : Option GoPackage :=
  pkgs.find? (fun pkg => fileInPkg pkg repoDir path)

/-- One iteration of the loop in `collectChanges` for one changed `path`:
when the path's base name is `go.mod` the module-delta resolver runs and
its result replaces the accumulated `changedMods`; then the path is
attributed to the first package listing it, if any.  `resolver path`
stands for `getChangedMods ctx path repoDir fromRef toRef`. -/
def collectStep (resolver : String → Except String (Finset String))
    (pkgs : List GoPackage) (repoDir : String)
    (st : Finset String × Finset String) (path : String) :
    Except String (Finset String × Finset String) := do
  let changedMods ←
    if filepathBase path = "go.mod" then resolver path else pure st.2
  let changedPackages :=
    match findOwner pkgs repoDir path with
    | some pkg => insert pkg.pkgPath st.1
    | none => st.1
  pure (changedPackages, changedMods)

/-- `collectChanges`: fold `collectStep` over the changed files, starting
from empty `changedPackages` and `changedMods` sets. -/
def collectChanges (resolver : String → Except String (Finset String))
    (pkgs : List GoPackage) (repoDir : String)
    (changedFiles : List String) :
    Except String (Finset String × Finset String) :=
  changedFiles.foldlM (collectStep resolver pkgs repoDir) (∅, ∅)

/-- `isChangedFromImports`: some import of the package is a changed local
package, or belongs to a changed third-party module. -/
def isChangedFromImports (imports : List (String × Option String))
    (changedMods changedPackages : Finset String) : Bool :=
  imports.any (fun imp =>
    imp.1 ∈ changedPackages ||
      (match imp.2 with
       | some modPath => modPath ∈ changedMods
       | none => false))

/-- One iteration of the final loop of `getChangedPackages`: a package not
already recorded is recorded when one of its imports is changed. -/
def phase2Step (changedMods : Finset String) (acc : Finset String)
    (pkg : GoPackage) : Finset String :=
  if pkg.pkgPath ∈ acc then acc
  else if isChangedFromImports pkg.imports changedMods acc then
    insert pkg.pkgPath acc
  else acc

/-- The final loop of `getChangedPackages` over the package list, which
relies on dependencies preceding dependents. -/
def phase2 (pkgs : List GoPackage) (changedMods changedPackages : Finset String) :
    Finset String :=
  pkgs.foldl (phase2Step changedMods) changedPackages

/-- The core of `getChangedPackages` after package loading: collect
direct changes, then propagate through imports.  The Go function returns
`maps.Keys(changedPackages)` in unspecified order; the model returns the
set itself. -/
def getChangedPackagesCore (resolver : String → Except String (Finset String))
    (pkgs : List GoPackage) (repoDir : String)
    (changedFiles : List String) : Except String (Finset String) := do
  let collected ← collectChanges resolver pkgs repoDir changedFiles
  pure (phase2 pkgs collected.2 collected.1)

/-- The topological invariant `loadLocalPackages` guarantees (via
`go list`'s `-deps` ordering, see the comment in `getChangedPackages`):
a package never imports a package that appears later in the list, which
also rules out self-imports and package-level import cycles within the
list. -/
def TopoSorted (pkgs : List GoPackage) : Prop :=
  List.Pairwise (fun A B => B.pkgPath ∉ A.imports.map Prod.fst) pkgs

/-- Two packages that agree on everything the program reads except for
the iteration order of the imports map: a Go `map` iterates in
unspecified order, so two runs on identical inputs may observe any two
permutations of the same entries. -/
def SameUpToImportOrder (P Q : GoPackage) : Prop :=
  P.pkgPath = Q.pkgPath ∧ P.goFiles = Q.goFiles ∧ P.otherFiles = Q.otherFiles ∧
    P.embedFiles = Q.embedFiles ∧ P.imports.Perm Q.imports

/-- A resolver that never reports changed modules, for concrete runs
without manifest changes. -/
def okResolver : String → Except String (Finset String) := fun _ => .ok ∅

/-- A concrete module-delta resolver: the manifest at `a/go.mod` yields
module `example.com/m`, any other manifest yields nothing. -/
def c3Resolver : String → Except String (Finset String) :=
  fun p => if p = "a/go.mod" then .ok {"example.com/m"} else .ok ∅

/-- Concrete package: `c`, owning one file, importing nothing. -/
def pkgC : GoPackage := ⟨"c", ["/repo/c/file.go"], [], [], []⟩

/-- Concrete package: `b`, importing local package `c`. -/
def pkgB : GoPackage := ⟨"b", ["/repo/b/file.go"], [], [], [("c", none)]⟩

/-- Concrete package: `a`, importing local package `b`. -/
def pkgA : GoPackage := ⟨"a", ["/repo/a/file.go"], [], [], [("b", none)]⟩

/-- Concrete topologically ordered package list: dependencies first. -/
def pkgsCBA : List GoPackage := [pkgC, pkgB, pkgA]

/-- Concrete package with two imports, in one map iteration order. -/
def pkgImp1 : GoPackage :=
  ⟨"p", ["/repo/p/p.go"], [], [], [("x", none), ("y", some "example.com/m")]⟩

/-- The same package with its imports observed in the other order. -/
def pkgImp2 : GoPackage :=
  ⟨"p", ["/repo/p/p.go"], [], [], [("y", some "example.com/m"), ("x", none)]⟩

end GoChangedPkgs

namespace GoChangedPkgsFlag

/-- `levelNames` from internal/flag/loglevel.go. -/
def levelNames : List String := ["debug", "info", "warn", "error"]

/-- `slog.Level`'s numeric value for each accepted name, as produced by
`slog.Level.UnmarshalText`: debug = -4, info = 0, warn = 4, error = 8. -/
def slogLevelOfName (value : String) : Int :=
  if value = "debug" then -4
  else if value = "info" then 0
  else if value = "warn" then 4
  else if value = "error" then 8
  else 0

/-- `SlogLevelValue`: holds an `slog.Level` (an integer). -/
structure SlogLevelValue where
  level : Int
deriving DecidableEq, Repr

/-- `SlogLevelValue.Set`: on a recognised name, store the level and
return nil; otherwise leave the receiver unchanged and return an error.
Modelled as the pair of the post-call receiver and the returned error. -/
def SlogLevelValue.set (v : SlogLevelValue) (value : String) :
    SlogLevelValue × Option String :=
  if value ∈ levelNames then
    (⟨slogLevelOfName value⟩, none)
  else
    (v, some ("invalid level " ++ value ++ ": must be one of: " ++
      String.intercalate ", " levelNames))

end GoChangedPkgsFlag

/-! ## Theorems -/

namespace GoChangedPkgs

/-- Bind on `Except` with a successful first component. -/
theorem exceptBind_ok {ε α β : Type} (x : α) (f : α → Except ε β) :
    (Except.ok x >>= f : Except ε β) = f x := rfl

/-- Bind on `Except` propagates an error unchanged. -/
theorem exceptBind_error {ε α β : Type} (e : ε) (f : α → Except ε β) :
    (Except.error e >>= f : Except ε β) = Except.error e := rfl

/-- `lastRequire` computed by the fold equals the first match in the
reversed list: Go map insertion keeps the last entry for a path. -/
theorem lastRequire_aux (p : String) (t : List Require) :
    ∀ acc : Option Require,
      t.foldl (fun acc req => if req.path = p then some req else acc) acc =
        (t.reverse.find? (fun r => r.path == p)).or acc := by
  induction t with
  | nil => intro acc; simp
  | cons r t ih =>
    intro acc
    rw [List.foldl_cons, ih, List.reverse_cons, List.find?_append]
    by_cases h : r.path = p
    · simp [h, Option.or_assoc]
    · simp [h, Option.or_assoc]

/-- `lastRequire` as a find over the reversed requirement list. -/
theorem lastRequire_eq (reqs : List Require) (p : String) :
    lastRequire reqs p = reqs.reverse.find? (fun r => r.path == p) := by
  rw [lastRequire, lastRequire_aux]; simp

/-- With pairwise-distinct module paths, `lastRequire` finds exactly the
unique requirement for a path. -/
theorem lastRequire_eq_some_iff (reqs : List Require)
    (hnd : (reqs.map Require.path).Nodup) (p : String) (o : Require) :
    lastRequire reqs p = some o ↔ o ∈ reqs ∧ o.path = p := by
  rw [lastRequire_eq]
  constructor
  · intro h
    have hmem := List.mem_of_find?_eq_some h
    have hpred := List.find?_some h
    rw [List.mem_reverse] at hmem
    exact ⟨hmem, by simpa using hpred⟩
  · rintro ⟨hmem, hpath⟩
    rcases hfind : reqs.reverse.find? (fun r => r.path == p) with _ | r
    · rw [List.find?_eq_none] at hfind
      exact absurd (by simpa using hpath) (hfind o (by simpa using hmem))
    · have hrmem : r ∈ reqs := by
        have := List.mem_of_find?_eq_some hfind
        simpa using this
      have hrpath : r.path = p := by simpa using List.find?_some hfind
      have : r = o := List.inj_on_of_nodup_map hnd hrmem hmem (hrpath.trans hpath.symm)
      exact this ▸ hfind

/-- `lastRequire` misses exactly when no requirement has the path. -/
theorem lastRequire_eq_none_iff (reqs : List Require) (p : String) :
    lastRequire reqs p = none ↔ ∀ o ∈ reqs, o.path ≠ p := by
  rw [lastRequire_eq, List.find?_eq_none]
  simp

/-- Membership in the fold computing `modsDelta`. -/
theorem mem_modsDelta_aux (oldReqs : List Require) (p : String) (l : List Require) :
    ∀ acc : Finset String,
      (p ∈ l.foldl (modsDeltaStep oldReqs) acc ↔
        p ∈ acc ∨ ∃ r ∈ l, r.path = p ∧
          ∃ o, lastRequire oldReqs r.path = some o ∧ r.version ≠ o.version) := by
  induction l with
  | nil => intro acc; simp
  | cons r t ih =>
    intro acc
    rw [List.foldl_cons, ih]
    simp only [List.mem_cons]
    rcases hlast : lastRequire oldReqs r.path with _ | o
    · simp only [modsDeltaStep, hlast]
      constructor
      · rintro (h | ⟨s, hs, hrest⟩)
        · exact Or.inl h
        · exact Or.inr ⟨s, Or.inr hs, hrest⟩
      · rintro (h | ⟨s, rfl | hs, hrest⟩)
        · exact Or.inl h
        · rcases hrest with ⟨hpath, o, ho, hv⟩
          rw [hlast] at ho; cases ho
        · exact Or.inr ⟨s, hs, hrest⟩
    · simp only [modsDeltaStep, hlast]
      by_cases hv : r.version = o.version
      · have hnv : ¬r.version ≠ o.version := by simpa using hv
        simp only [if_neg hnv]
        constructor
        · rintro (h | ⟨s, hs, hrest⟩)
          · exact Or.inl h
          · exact Or.inr ⟨s, Or.inr hs, hrest⟩
        · rintro (h | ⟨s, rfl | hs, hrest⟩)
          · exact Or.inl h
          · rcases hrest with ⟨hpath, o', ho', hver⟩
            rw [hlast] at ho'
            cases ho'
            exact absurd hv hver
          · exact Or.inr ⟨s, hs, hrest⟩
      · have hv' : r.version ≠ o.version := hv
        simp only [if_pos hv', Finset.mem_insert]
        constructor
        · rintro ((h | h) | ⟨s, hs, hrest⟩)
          · exact Or.inr ⟨r, Or.inl rfl, h.symm, o, hlast, hv'⟩
          · exact Or.inl h
          · exact Or.inr ⟨s, Or.inr hs, hrest⟩
        · rintro (h | ⟨s, rfl | hs, hrest⟩)
          · exact Or.inl (Or.inr h)
          · exact Or.inl (Or.inl hrest.1.symm)
          · exact Or.inr ⟨s, hs, hrest⟩

/-- C2: a module name is in the computed manifest delta iff it is
required by both snapshots (whose module paths are unique, per the
manifest format) with differing version strings; modules present in only
one snapshot are never in the delta. -/
theorem c2_manifest_delta_membership (cur old : ModFile)
    (_hcur : (cur.require.map Require.path).Nodup)
    (hold : (old.require.map Require.path).Nodup) (m : String) :
    m ∈ modsDelta cur old ↔
      ∃ rc ∈ cur.require, rc.path = m ∧
        ∃ ro ∈ old.require, ro.path = m ∧ rc.version ≠ ro.version := by
  rw [modsDelta, mem_modsDelta_aux]
  simp only [Finset.not_mem_empty, false_or]
  constructor
  · rintro ⟨rc, hrc, hpath, o, ho, hv⟩
    rw [hpath, lastRequire_eq_some_iff old.require hold m o] at ho
    exact ⟨rc, hrc, hpath, o, ho.1, ho.2, hv⟩
  · rintro ⟨rc, hrc, hpath, ro, hro, hpath2, hv⟩
    refine ⟨rc, hrc, hpath, ro, ?_, hv⟩
    rw [hpath]
    exact (lastRequire_eq_some_iff old.require hold m ro).mpr ⟨hro, hpath2⟩

/-- Witness for C2: with current snapshot
`{example.com/m v2, example.com/new v1}` and prior snapshot
`{example.com/m v1, example.com/gone v1}`, `example.com/m` is in the
delta. -/
theorem c2_manifest_delta_membership_witness :
    "example.com/m" ∈
      modsDelta ⟨[⟨"example.com/m", "v2"⟩, ⟨"example.com/new", "v1"⟩]⟩
        ⟨[⟨"example.com/m", "v1"⟩, ⟨"example.com/gone", "v1"⟩]⟩ :=
  (c2_manifest_delta_membership _ _ (by decide) (by decide) _).mpr
    ⟨⟨"example.com/m", "v2"⟩, by decide, rfl,
      ⟨"example.com/m", "v1"⟩, by decide, rfl, by decide⟩

/-- The update `collectStep` applies to the changed-packages set. -/
def attributeUpd (pkgs : List GoPackage) (repoDir path : String)
    (cp : Finset String) : Finset String :=
  match findOwner pkgs repoDir path with
  | some pkg => insert pkg.pkgPath cp
  | none => cp

/-- `collectStep` on a non-manifest path: no resolver call, the mods set
is kept, and only attribution updates the package set. -/
theorem collectStep_not_mod (r : String → Except String (Finset String))
    (pkgs : List GoPackage) (d : String) (st : Finset String × Finset String)
    (p : String) (h : ¬filepathBase p = "go.mod") :
    collectStep r pkgs d st p = .ok (attributeUpd pkgs d p st.1, st.2) := by
  simp only [collectStep, if_neg h, pure_bind]
  rfl

/-- `collectStep` on a manifest path whose resolver succeeds: the
resolver's result replaces the mods set, and attribution still runs. -/
theorem collectStep_mod_ok (r : String → Except String (Finset String))
    (pkgs : List GoPackage) (d : String) (st : Finset String × Finset String)
    (p : String) (δ : Finset String) (h : filepathBase p = "go.mod")
    (hr : r p = .ok δ) :
    collectStep r pkgs d st p = .ok (attributeUpd pkgs d p st.1, δ) := by
  simp only [collectStep, if_pos h, hr, exceptBind_ok]
  rfl

/-- `collectStep` on a manifest path whose resolver fails: the error
propagates. -/
theorem collectStep_mod_error (r : String → Except String (Finset String))
    (pkgs : List GoPackage) (d : String) (st : Finset String × Finset String)
    (p : String) (e : String) (h : filepathBase p = "go.mod")
    (hr : r p = .error e) :
    collectStep r pkgs d st p = .error e := by
  simp only [collectStep, if_pos h, hr, exceptBind_error]

/-- The fold of `collectStep` succeeds exactly when every manifest path
in the list resolves successfully. -/
theorem collectFold_ok_iff (r : String → Except String (Finset String))
    (pkgs : List GoPackage) (d : String) (files : List String) :
    ∀ st, (∃ res, files.foldlM (collectStep r pkgs d) st = .ok res) ↔
      ∀ p ∈ files, filepathBase p = "go.mod" → ∃ δ, r p = .ok δ := by
  induction files with
  | nil =>
    intro st
    simp only [List.foldlM_nil]
    constructor
    · intro _ p hp
      cases hp
    · intro _
      exact ⟨st, rfl⟩
  | cons p t ih =>
    intro st
    rw [List.foldlM_cons, List.forall_mem_cons]
    by_cases hb : filepathBase p = "go.mod"
    · rcases hr : r p with e | δ
      · rw [collectStep_mod_error r pkgs d st p e hb hr, exceptBind_error]
        constructor
        · rintro ⟨res, hres⟩; cases hres
        · rintro ⟨hp, -⟩
          rcases hp hb with ⟨δ, hδ⟩
          cases hδ
      · rw [collectStep_mod_ok r pkgs d st p δ hb hr, exceptBind_ok, ih]
        constructor
        · intro h; exact ⟨fun _ => ⟨δ, rfl⟩, h⟩
        · rintro ⟨-, h⟩; exact h
    · rw [collectStep_not_mod r pkgs d st p hb, exceptBind_ok, ih]
      constructor
      · intro h; exact ⟨fun hb' => absurd hb' hb, h⟩
      · rintro ⟨-, h⟩; exact h

/-- After a successful fold of `collectStep`, the final mods set is the
resolver's result on the last manifest path, or the initial mods set if
no manifest path occurs. -/
theorem collectFold_cm (r : String → Except String (Finset String))
    (pkgs : List GoPackage) (d : String) (files : List String) :
    ∀ st res, files.foldlM (collectStep r pkgs d) st = .ok res →
      (files.reverse.find? isManifest = none → res.2 = st.2)
      ∧ ∀ q, files.reverse.find? isManifest = some q → r q = .ok res.2 := by
  induction files with
  | nil =>
    intro st res h
    simp only [List.foldlM_nil] at h
    cases h
    simp
  | cons p t ih =>
    intro st res h
    rw [List.foldlM_cons] at h
    rw [List.reverse_cons, List.find?_append]
    by_cases hb : filepathBase p = "go.mod"
    · have hsingle : [p].find? isManifest = some p :=
        List.find?_cons_of_pos _ (by simp [isManifest, hb])
      rcases hr : r p with e | δ
      · rw [collectStep_mod_error r pkgs d st p e hb hr, exceptBind_error] at h
        cases h
      · rw [collectStep_mod_ok r pkgs d st p δ hb hr, exceptBind_ok] at h
        have hrec := ih _ _ h
        constructor
        · intro hnone
          rcases hfind : t.reverse.find? isManifest with _ | q'
          · simp [hfind, hsingle] at hnone
          · simp [hfind] at hnone
        · intro q hq
          rcases hfind : t.reverse.find? isManifest with _ | q'
          · simp only [hfind, hsingle, Option.none_or, Option.some.injEq] at hq
            subst hq
            rw [hrec.1 hfind]
            exact hr
          · simp only [hfind, Option.or_some, Option.some.injEq] at hq
            subst hq
            exact hrec.2 _ hfind
    · have hsingle : [p].find? isManifest = none := by
        simp [isManifest, hb]
      rw [collectStep_not_mod r pkgs d st p hb, exceptBind_ok] at h
      have hrec := ih _ _ h
      rw [hsingle, Option.or_none]
      exact hrec

/-- After a successful fold of `collectStep`, a path is in the final
changed-packages set iff it was there initially or it is the owner of
one of the changed files. -/
theorem collectFold_cp_mem (r : String → Except String (Finset String))
    (pkgs : List GoPackage) (d : String) (files : List String) :
    ∀ st res, files.foldlM (collectStep r pkgs d) st = .ok res →
      ∀ x, (x ∈ res.1 ↔ x ∈ st.1 ∨
        ∃ p ∈ files, ∃ pkg, findOwner pkgs d p = some pkg ∧ pkg.pkgPath = x) := by
  induction files with
  | nil =>
    intro st res h x
    simp only [List.foldlM_nil] at h
    cases h
    simp
  | cons p t ih =>
    intro st res h x
    rw [List.foldlM_cons] at h
    have hstep : ∀ st' : Finset String × Finset String,
        st'.1 = attributeUpd pkgs d p st.1 →
        t.foldlM (collectStep r pkgs d) st' = .ok res →
        (x ∈ res.1 ↔ x ∈ st.1 ∨
          ∃ q ∈ p :: t, ∃ pkg, findOwner pkgs d q = some pkg ∧ pkg.pkgPath = x) := by
      intro st' hst' hfold
      rw [ih _ _ hfold, hst']
      simp only [List.mem_cons]
      rcases hown : findOwner pkgs d p with _ | pkg
      · simp only [attributeUpd, hown]
        constructor
        · rintro (hx | ⟨q, hq, hrest⟩)
          · exact Or.inl hx
          · exact Or.inr ⟨q, Or.inr hq, hrest⟩
        · rintro (hx | ⟨q, rfl | hq, hrest⟩)
          · exact Or.inl hx
          · rcases hrest with ⟨pkg, hpkg, -⟩
            rw [hown] at hpkg; cases hpkg
          · exact Or.inr ⟨q, hq, hrest⟩
      · simp only [attributeUpd, hown, Finset.mem_insert]
        constructor
        · rintro ((hx | hx) | ⟨q, hq, hrest⟩)
          · exact Or.inr ⟨p, Or.inl rfl, pkg, hown, hx.symm⟩
          · exact Or.inl hx
          · exact Or.inr ⟨q, Or.inr hq, hrest⟩
        · rintro (hx | ⟨q, rfl | hq, hrest⟩)
          · exact Or.inl (Or.inr hx)
          · rcases hrest with ⟨pkg', hpkg', hpath⟩
            rw [hown] at hpkg'
            cases hpkg'
            exact Or.inl (Or.inl hpath.symm)
          · exact Or.inr ⟨q, hq, hrest⟩
    by_cases hb : filepathBase p = "go.mod"
    · rcases hr : r p with e | δ
      · rw [collectStep_mod_error r pkgs d st p e hb hr, exceptBind_error] at h
        cases h
      · rw [collectStep_mod_ok r pkgs d st p δ hb hr, exceptBind_ok] at h
        exact hstep _ rfl h
    · rw [collectStep_not_mod r pkgs d st p hb, exceptBind_ok] at h
      exact hstep _ rfl h

/-- C3 counterexample: two changed manifest paths where the first
resolves to module `example.com/m` and the second to nothing; the
consumed module-delta is empty, so the module flagged by the earlier
occurrence is NOT retained, refuting a per-module-name combination. -/
theorem c3_counterexample :
    c3Resolver "a/go.mod" = .ok {"example.com/m"}
    ∧ c3Resolver "b/go.mod" = .ok ∅
    ∧ collectChanges c3Resolver [] "/repo" ["a/go.mod", "b/go.mod"] = .ok (∅, ∅) :=
  ⟨rfl, rfl, rfl⟩

/-- C3 (amended): the resolver runs once per changed manifest path, and
the module-delta the engine consumes is the whole result of the LAST
manifest occurrence (each invocation's result replaces the previous map
wholesale); it is empty when no manifest path changed. -/
theorem c3_last_manifest_wins (r : String → Except String (Finset String))
    (pkgs : List GoPackage) (repoDir : String) (files : List String)
    (cp cm : Finset String)
    (h : collectChanges r pkgs repoDir files = .ok (cp, cm)) :
    (files.reverse.find? isManifest = none → cm = ∅)
    ∧ ∀ q, files.reverse.find? isManifest = some q → r q = .ok cm := by
  rw [collectChanges] at h
  exact collectFold_cm r pkgs repoDir files (∅, ∅) (cp, cm) h

/-- Witness for C3 (amended): with manifests `a/go.mod` then `b/go.mod`
changed, the consumed delta is the result for `b/go.mod`. -/
theorem c3_last_manifest_wins_witness :
    c3Resolver "b/go.mod" = .ok ∅ :=
  (c3_last_manifest_wins c3Resolver [] "/repo" ["a/go.mod", "b/go.mod"] ∅ ∅ rfl).2
    "b/go.mod" rfl

/-- C4: if the manifest content of a changed `go.mod` path cannot be
read at either revision, or parsing either snapshot fails, the whole
computation returns an error (no impact set), and each failure is
wrapped with context by `readModFileAtRef`. -/
theorem c4_fail_fast (gitShow : String → String → Except String String)
    (parse : String → String → Except String ModFile)
    (pkgs : List GoPackage) (repoDir fromRef toRef : String)
    (files : List String) (p : String)
    (hp : p ∈ files) (hbase : filepathBase p = "go.mod")
    (hfail : (∃ e, gitShow fromRef p = .error e) ∨ (∃ e, gitShow toRef p = .error e)
      ∨ (∃ c e, gitShow fromRef p = .ok c ∧ parse p c = .error e)
      ∨ (∃ c e, gitShow toRef p = .ok c ∧ parse p c = .error e)) :
    (∃ msg, getChangedPackagesCore
        (fun q => getChangedMods gitShow parse q fromRef toRef) pkgs repoDir files
        = .error msg)
    ∧ (∀ modPath ref e, gitShow ref modPath = .error e →
        readModFileAtRef gitShow parse modPath ref =
          .error ("reading " ++ modPath ++ " at " ++ ref ++ ": " ++ e))
    ∧ (∀ modPath ref c e, gitShow ref modPath = .ok c → parse modPath c = .error e →
        readModFileAtRef gitShow parse modPath ref =
          .error ("parsing mod file " ++ modPath ++ " at " ++ ref ++ ": " ++ e)) := by
  have hread : ∀ modPath ref e, gitShow ref modPath = .error e →
      readModFileAtRef gitShow parse modPath ref =
        .error ("reading " ++ modPath ++ " at " ++ ref ++ ": " ++ e) := by
    intro modPath ref e he
    rw [readModFileAtRef, he]
  have hparse : ∀ modPath ref c e, gitShow ref modPath = .ok c →
      parse modPath c = .error e →
      readModFileAtRef gitShow parse modPath ref =
        .error ("parsing mod file " ++ modPath ++ " at " ++ ref ++ ": " ++ e) := by
    intro modPath ref c e hc he
    rw [readModFileAtRef, hc]
    simp [he]
  refine ⟨?_, hread, hparse⟩
  have hmods : ∃ e, getChangedMods gitShow parse p fromRef toRef = .error e := by
    rcases hfrom : readModFileAtRef gitShow parse p fromRef with e₁ | oldF
    · exact ⟨e₁, by simp [getChangedMods, readModFiles, hfrom, exceptBind_error]⟩
    · rcases hfail with ⟨e, he⟩ | ⟨e, he⟩ | ⟨c, e, hc, he⟩ | ⟨c, e, hc, he⟩
      · rw [hread p fromRef e he] at hfrom; cases hfrom
      · exact ⟨"reading " ++ p ++ " at " ++ toRef ++ ": " ++ e, by
          simp [getChangedMods, readModFiles, hfrom, hread p toRef e he,
            exceptBind_ok, exceptBind_error]⟩
      · rw [hparse p fromRef c e hc he] at hfrom; cases hfrom
      · exact ⟨"parsing mod file " ++ p ++ " at " ++ toRef ++ ": " ++ e, by
          simp [getChangedMods, readModFiles, hfrom, hparse p toRef c e hc he,
            exceptBind_ok, exceptBind_error]⟩
  have hnone : ¬∃ res, collectChanges
      (fun q => getChangedMods gitShow parse q fromRef toRef) pkgs repoDir files
      = .ok res := by
    rw [collectChanges, collectFold_ok_iff]
    intro hall
    rcases hmods with ⟨e, he⟩
    rcases hall p hp hbase with ⟨δ, hδ⟩
    rw [he] at hδ
    cases hδ
  rcases hcc : collectChanges
      (fun q => getChangedMods gitShow parse q fromRef toRef) pkgs repoDir files
    with msg | res
  · exact ⟨msg, by simp [getChangedPackagesCore, hcc, exceptBind_error]⟩
  · exact absurd ⟨res, hcc⟩ hnone

/-- Witness for C4: with a git-show primitive that always fails, a run
whose changed files include `go.mod` returns an error. -/
theorem c4_fail_fast_witness :
    ∃ msg, getChangedPackagesCore
      (fun q => getChangedMods (fun _ _ => .error "fatal: bad object")
        (fun _ _ => .ok ⟨[]⟩) q "HEAD~1" "HEAD") [] "/repo" ["go.mod"]
      = .error msg :=
  (c4_fail_fast (fun _ _ => .error "fatal: bad object") (fun _ _ => .ok ⟨[]⟩)
    [] "/repo" "HEAD~1" "HEAD" ["go.mod"] "go.mod"
    (by decide) (by decide) (Or.inl ⟨"fatal: bad object", rfl⟩)).1

/-- C5: a changed file owned by no package is attributed to no owner,
contributes nothing to the changed-package set, and raises no error;
attribution scans packages in stored order and stops at the first
package listing the file. -/
theorem c5_unowned_file_noop (pkgs : List GoPackage) (repoDir path : String)
    (hun : ∀ pkg ∈ pkgs, fileInPkg pkg repoDir path = false) :
    findOwner pkgs repoDir path = none
    ∧ (∀ (r : String → Except String (Finset String))
        (st : Finset String × Finset String),
        (filepathBase path = "go.mod" → ∃ δ, r path = .ok δ) →
        ∃ cm, collectStep r pkgs repoDir st path = .ok (st.1, cm))
    ∧ ∀ (front back : List GoPackage) (pkg : GoPackage),
        (∀ q ∈ front, fileInPkg q repoDir path = false) →
        fileInPkg pkg repoDir path = true →
        findOwner (front ++ pkg :: back) repoDir path = some pkg := by
  have hfo : findOwner pkgs repoDir path = none :=
    List.find?_eq_none.mpr fun pkg hpkg => by simp [hun pkg hpkg]
  refine ⟨hfo, ?_, ?_⟩
  · intro r st hres
    by_cases hb : filepathBase path = "go.mod"
    · rcases hres hb with ⟨δ, hδ⟩
      refine ⟨δ, ?_⟩
      rw [collectStep_mod_ok r pkgs repoDir st path δ hb hδ]
      simp [attributeUpd, hfo]
    · refine ⟨st.2, ?_⟩
      rw [collectStep_not_mod r pkgs repoDir st path hb]
      simp [attributeUpd, hfo]
  · intro front back pkg hfront hpkg
    rw [findOwner, List.find?_append]
    have h1 : front.find? (fun q => fileInPkg q repoDir path) = none :=
      List.find?_eq_none.mpr fun q hq => by simp [hfront q hq]
    rw [h1, Option.none_or]
    exact List.find?_cons_of_pos _ hpkg

/-- Witness for C5: `unrelated/readme.md` is owned by none of the
packages `c`, `b`, `a`, and its collect step leaves the package set
unchanged. -/
theorem c5_unowned_file_noop_witness :
    findOwner pkgsCBA "/repo" "unrelated/readme.md" = none
    ∧ ∃ cm, collectStep okResolver pkgsCBA "/repo" (∅, ∅) "unrelated/readme.md"
        = .ok (∅, cm) :=
  ⟨(c5_unowned_file_noop pkgsCBA "/repo" "unrelated/readme.md" (by decide)).1,
    (c5_unowned_file_noop pkgsCBA "/repo" "unrelated/readme.md" (by decide)).2.1
      okResolver (∅, ∅) (fun _ => ⟨∅, rfl⟩)⟩

/-- C8: an empty revision diff yields the one-element list containing
the empty string; the empty path has base name `.`, so it is not treated
as a manifest, and (being owned by no package) it contributes nothing:
the collected changes are empty and no error is raised. -/
theorem c8_empty_diff :
    getChangedFiles (.ok "") = .ok [""]
    ∧ filepathBase "" = "."
    ∧ ∀ (r : String → Except String (Finset String)) (pkgs : List GoPackage)
        (repoDir : String),
        (∀ pkg ∈ pkgs, fileInPkg pkg repoDir "" = false) →
        collectChanges r pkgs repoDir [""] = .ok (∅, ∅) := by
  refine ⟨rfl, rfl, ?_⟩
  intro r pkgs repoDir hun
  have hb : ¬filepathBase "" = "go.mod" := by decide
  have hfo : findOwner pkgs repoDir "" = none :=
    List.find?_eq_none.mpr fun pkg hpkg => by simp [hun pkg hpkg]
  rw [collectChanges, List.foldlM_cons,
    collectStep_not_mod r pkgs repoDir (∅, ∅) "" hb, exceptBind_ok,
    List.foldlM_nil]
  simp [attributeUpd, hfo]
  rfl

/-- Witness for C8: with the packages `c`, `b`, `a` rooted at `/repo`,
the empty path is unowned and the run over `[""]` collects nothing. -/
theorem c8_empty_diff_witness :
    collectChanges okResolver pkgsCBA "/repo" [""] = .ok (∅, ∅) :=
  c8_empty_diff.2.2 okResolver pkgsCBA "/repo" (by decide)

/-- C9: any path whose base name is `go.mod` — in particular any path of
the form `dir ++ "/go.mod"`, at any directory depth — triggers the
module-delta resolver, and the same iteration still attributes the path
to a package as for any ordinary file. -/
theorem c9_manifest_by_basename (r : String → Except String (Finset String))
    (pkgs : List GoPackage) (repoDir : String)
    (st : Finset String × Finset String) (path : String) :
    (∀ dir : String, filepathBase (dir ++ "/go.mod") = "go.mod")
    ∧ (filepathBase path = "go.mod" → ∀ δ, r path = .ok δ →
        collectStep r pkgs repoDir st path =
          .ok (attributeUpd pkgs repoDir path st.1, δ)) := by
  constructor
  · intro dir
    have hne : ¬(dir ++ "/go.mod") = "" := by
      intro h
      have h2 := congrArg String.length h
      rw [String.length_append] at h2
      have h7 : "/go.mod".length = 7 := rfl
      have h0 : "".length = 0 := rfl
      rw [h7, h0] at h2
      omega
    rw [filepathBase, if_neg hne]
    have hdata : (dir ++ "/go.mod").toList =
        dir.toList ++ ['/', 'g', 'o', '.', 'm', 'o', 'd'] :=
      String.data_append dir "/go.mod"
    rw [hdata, List.reverse_append]
    simp only [List.reverse_cons, List.reverse_nil, List.nil_append, List.cons_append,
      List.append_assoc]
    rw [List.dropWhile_cons_of_neg (by decide)]
    rw [if_neg (by simp)]
    rw [List.takeWhile_cons_of_pos (by decide), List.takeWhile_cons_of_pos (by decide),
      List.takeWhile_cons_of_pos (by decide), List.takeWhile_cons_of_pos (by decide),
      List.takeWhile_cons_of_pos (by decide), List.takeWhile_cons_of_pos (by decide),
      List.takeWhile_cons_of_neg (by decide)]
    rfl
  · intro hb δ hδ
    exact collectStep_mod_ok r pkgs repoDir st path δ hb hδ

/-- Unfolding one phase-2 iteration. -/
theorem phase2_cons (P : GoPackage) (pkgs : List GoPackage)
    (cm s : Finset String) :
    phase2 (P :: pkgs) cm s = phase2 pkgs cm (phase2Step cm s P) := by
  rw [phase2, List.foldl_cons]
  rfl

/-- One phase-2 step only grows the accumulated set. -/
theorem subset_phase2Step (cm s : Finset String) (pkg : GoPackage) :
    s ⊆ phase2Step cm s pkg := by
  rw [phase2Step]
  by_cases h1 : pkg.pkgPath ∈ s
  · rw [if_pos h1]
  · rw [if_neg h1]
    by_cases h2 : isChangedFromImports pkg.imports cm s = true
    · rw [if_pos h2]
      exact Finset.subset_insert _ _
    · rw [if_neg h2]

/-- Phase 2 only grows the accumulated set. -/
theorem subset_phase2 (cm : Finset String) :
    ∀ (pkgs : List GoPackage) (s : Finset String), s ⊆ phase2 pkgs cm s := by
  intro pkgs
  induction pkgs with
  | nil => intro s; exact subset_rfl
  | cons P rest ih =>
    intro s
    rw [phase2_cons]
    exact (subset_phase2Step cm s P).trans (ih _)

/-- Phase 2 only ever inserts paths of packages in the list. -/
theorem mem_phase2_cases (cm : Finset String) :
    ∀ (pkgs : List GoPackage) (s : Finset String) (x : String),
      x ∈ phase2 pkgs cm s → x ∈ s ∨ ∃ Q ∈ pkgs, Q.pkgPath = x := by
  intro pkgs
  induction pkgs with
  | nil => intro s x hx; exact Or.inl hx
  | cons P rest ih =>
    intro s x hx
    rw [phase2_cons] at hx
    rcases ih _ x hx with hx' | ⟨Q, hQ, rfl⟩
    · rw [phase2Step] at hx'
      by_cases h1 : P.pkgPath ∈ s
      · rw [if_pos h1] at hx'
        exact Or.inl hx'
      · rw [if_neg h1] at hx'
        by_cases h2 : isChangedFromImports P.imports cm s = true
        · rw [if_pos h2, Finset.mem_insert] at hx'
          rcases hx' with rfl | hx'
          · exact Or.inr ⟨P, List.mem_cons_self _ _, rfl⟩
          · exact Or.inl hx'
        · rw [if_neg h2] at hx'
          exact Or.inl hx'
    · exact Or.inr ⟨Q, List.mem_cons_of_mem _ hQ, rfl⟩

/-- A false `isChangedFromImports` means no import path is in the set. -/
theorem not_mem_of_isChangedFromImports_false
    (imports : List (String × Option String)) (cm s : Finset String)
    (h : ¬isChangedFromImports imports cm s = true) (ip : String)
    (hip : ip ∈ imports.map Prod.fst) : ip ∉ s := by
  rw [isChangedFromImports, Bool.not_eq_true, List.any_eq_false] at h
  rcases List.mem_map.mp hip with ⟨imp, himp, rfl⟩
  have := h imp himp
  rw [Bool.not_eq_true, Bool.or_eq_false_iff] at this
  intro hmem
  have hd := this.1
  rw [decide_eq_false_iff_not] at hd
  exact hd hmem

/-- The phase-2 closure property under the topological invariant: a
package one of whose imported paths lands in the final set is itself in
the final set. -/
theorem phase2_closure (cm : Finset String) :
    ∀ pkgs : List GoPackage, TopoSorted pkgs →
      ∀ (s : Finset String), ∀ P ∈ pkgs, ∀ ip ∈ P.imports.map Prod.fst,
        ip ∈ phase2 pkgs cm s → P.pkgPath ∈ phase2 pkgs cm s := by
  intro pkgs
  induction pkgs with
  | nil => intro _ s P hP; cases hP
  | cons R rest ih =>
    intro htopo s P hP ip hip hmem
    rw [TopoSorted, List.pairwise_cons] at htopo
    rcases List.mem_cons.mp hP with rfl | hP'
    · have hstep : P.pkgPath ∈ phase2Step cm s P ∨
          (phase2Step cm s P = s ∧ P.pkgPath ∉ s ∧
            ¬isChangedFromImports P.imports cm s = true) := by
        rw [phase2Step]
        by_cases h1 : P.pkgPath ∈ s
        · rw [if_pos h1]
          exact Or.inl h1
        · rw [if_neg h1]
          by_cases h2 : isChangedFromImports P.imports cm s = true
          · rw [if_pos h2]
            exact Or.inl (Finset.mem_insert_self _ _)
          · rw [if_neg h2]
            exact Or.inr ⟨rfl, h1, h2⟩
      rcases hstep with hmem' | ⟨heq, -, hfalse⟩
      · rw [phase2_cons]
        exact subset_phase2 cm rest _ hmem'
      · rw [phase2_cons, heq] at hmem
        have hnotin : ip ∉ s :=
          not_mem_of_isChangedFromImports_false P.imports cm s hfalse ip hip
        rcases mem_phase2_cases cm rest s ip hmem with hin | ⟨Q, hQ, hQpath⟩
        · exact absurd hin hnotin
        · exact absurd (hQpath ▸ hip) (htopo.1 Q hQ)
    · rw [phase2_cons] at hmem ⊢
      exact ih htopo.2 _ P hP' ip hip hmem

/-- Impact propagates along any import chain ending at a directly
changed package, in one forward pass over a topologically ordered list. -/
theorem phase2_chain (pkgs : List GoPackage) (cm cp : Finset String)
    (htopo : TopoSorted pkgs) :
    ∀ chain : List GoPackage, (∀ P ∈ chain, P ∈ pkgs) →
      List.Chain' (fun A B => B.pkgPath ∈ A.imports.map Prod.fst) chain →
      (∀ L, chain.getLast? = some L → L.pkgPath ∈ cp) →
      ∀ P ∈ chain, P.pkgPath ∈ phase2 pkgs cm cp := by
  intro chain
  induction chain with
  | nil => intro _ _ _ P hP; cases hP
  | cons A rest ih =>
    intro hmem hchain hlast P hP
    rcases hrest : rest with _ | ⟨B, rest'⟩
    · subst hrest
      rcases List.mem_cons.mp hP with rfl | hP'
      · have : P.pkgPath ∈ cp := hlast P rfl
        exact subset_phase2 cm pkgs cp this
      · cases hP'
    · subst hrest
      have hmem' : ∀ Q ∈ B :: rest', Q ∈ pkgs := fun Q hQ =>
        hmem Q (List.mem_cons_of_mem _ hQ)
      have hchain' : List.Chain' (fun A B => B.pkgPath ∈ A.imports.map Prod.fst)
          (B :: rest') := (List.chain'_cons.mp hchain).2
      have hlast' : ∀ L, (B :: rest').getLast? = some L → L.pkgPath ∈ cp := by
        intro L hL
        exact hlast L (by rw [List.getLast?_cons_cons]; exact hL)
      have hrec := ih hmem' hchain' hlast'
      rcases List.mem_cons.mp hP with rfl | hP'
      · have hB : B.pkgPath ∈ phase2 pkgs cm cp := hrec B (List.mem_cons_self _ _)
        exact phase2_closure cm pkgs htopo cp P (hmem P (List.mem_cons_self _ _))
          B.pkgPath (List.chain'_cons.mp hchain).1 hB
      · exact hrec P hP'

/-- C1: with a topologically ordered package list (no package imports a
later one), impact propagates along arbitrarily long import chains in
the single forward pass: every package on an import chain ending at a
package in the directly-changed set is in the final impact set. -/
theorem c1_transitive_propagation (r : String → Except String (Finset String))
    (pkgs : List GoPackage) (repoDir : String) (files : List String)
    (cp cm : Finset String) (chain : List GoPackage)
    (htopo : TopoSorted pkgs)
    (hcollect : collectChanges r pkgs repoDir files = .ok (cp, cm))
    (hmem : ∀ P ∈ chain, P ∈ pkgs)
    (hchain : List.Chain' (fun A B => B.pkgPath ∈ A.imports.map Prod.fst) chain)
    (hlast : ∀ L, chain.getLast? = some L → L.pkgPath ∈ cp) :
    getChangedPackagesCore r pkgs repoDir files = .ok (phase2 pkgs cm cp)
    ∧ ∀ P ∈ chain, P.pkgPath ∈ phase2 pkgs cm cp := by
  constructor
  · rw [getChangedPackagesCore, hcollect, exceptBind_ok]
    rfl
  · exact phase2_chain pkgs cm cp htopo chain hmem hchain hlast

/-- Witness for C1: `a` imports `b`, `b` imports `c`, and only `c`'s
file changed; all of `a`, `b`, `c` are impacted. -/
theorem c1_transitive_propagation_witness :
    pkgA.pkgPath ∈ phase2 pkgsCBA ∅ {"c"}
    ∧ pkgB.pkgPath ∈ phase2 pkgsCBA ∅ {"c"}
    ∧ pkgC.pkgPath ∈ phase2 pkgsCBA ∅ {"c"} :=
  have h := (c1_transitive_propagation okResolver pkgsCBA "/repo" ["c/file.go"]
    {"c"} ∅ [pkgA, pkgB, pkgC] (by rw [TopoSorted]; decide) rfl (by decide)
    (by simp [List.chain'_cons, pkgA, pkgB, pkgC])
    (by
      intro L hL
      rw [show ([pkgA, pkgB, pkgC].getLast? : Option GoPackage) = some pkgC from rfl]
        at hL
      cases hL
      decide)).2
  ⟨h pkgA (by decide), h pkgB (by decide), h pkgC (by decide)⟩

/-- `List.any` is invariant under permutation. -/
theorem any_perm {α : Type} {l1 l2 : List α} (f : α → Bool) (h : l1.Perm l2) :
    l1.any f = l2.any f := by
  cases h1 : l1.any f <;> cases h2 : l2.any f <;> try rfl
  · rw [List.any_eq_false] at h1
    rw [List.any_eq_true] at h2
    rcases h2 with ⟨x, hx, hfx⟩
    exact absurd hfx (h1 x (h.mem_iff.mpr hx))
  · rw [List.any_eq_false] at h2
    rw [List.any_eq_true] at h1
    rcases h1 with ⟨x, hx, hfx⟩
    exact absurd hfx (h2 x (h.mem_iff.mp hx))

/-- Packages equal up to import order agree on file ownership. -/
theorem fileInPkg_eq_of_same (P Q : GoPackage) (h : SameUpToImportOrder P Q)
    (d p : String) : fileInPkg P d p = fileInPkg Q d p := by
  rcases h with ⟨-, h2, h3, h4, -⟩
  rw [fileInPkg, fileInPkg, h2, h3, h4]

/-- Attribution over lists equal up to import order finds related
owners (in particular, owners with the same package path). -/
theorem findOwner_congr (d p : String) :
    ∀ {pkgs pkgs' : List GoPackage}, List.Forall₂ SameUpToImportOrder pkgs pkgs' →
      (findOwner pkgs d p = none ∧ findOwner pkgs' d p = none) ∨
      ∃ a b, findOwner pkgs d p = some a ∧ findOwner pkgs' d p = some b ∧
        SameUpToImportOrder a b := by
  intro pkgs pkgs' h
  induction h with
  | nil => exact Or.inl ⟨rfl, rfl⟩
  | @cons a b l1 l2 hab hrest ih =>
    by_cases hf : fileInPkg a d p = true
    · right
      refine ⟨a, b, List.find?_cons_of_pos _ hf, ?_, hab⟩
      exact List.find?_cons_of_pos _ (by rw [← fileInPkg_eq_of_same a b hab]; exact hf)
    · have hf' : ¬fileInPkg b d p = true := by
        rw [← fileInPkg_eq_of_same a b hab]; exact hf
      have e1 : findOwner (a :: l1) d p = findOwner l1 d p :=
        @List.find?_cons_of_neg GoPackage (fun pkg => fileInPkg pkg d p) a l1 hf
      have e2 : findOwner (b :: l2) d p = findOwner l2 d p :=
        @List.find?_cons_of_neg GoPackage (fun pkg => fileInPkg pkg d p) b l2 hf'
      rw [e1, e2]
      exact ih

/-- The package-set update of a collect step is the same for lists equal
up to import order. -/
theorem attributeUpd_congr (d p : String) (cp : Finset String)
    {pkgs pkgs' : List GoPackage}
    (h : List.Forall₂ SameUpToImportOrder pkgs pkgs') :
    attributeUpd pkgs d p cp = attributeUpd pkgs' d p cp := by
  rcases findOwner_congr d p h with ⟨h1, h2⟩ | ⟨a, b, h1, h2, hab⟩
  · rw [attributeUpd, attributeUpd, h1, h2]
  · rw [attributeUpd, attributeUpd, h1, h2]
    simp only [hab.1]

/-- A collect step is the same for lists equal up to import order. -/
theorem collectStep_congr (r : String → Except String (Finset String))
    (d : String) (st : Finset String × Finset String) (p : String)
    {pkgs pkgs' : List GoPackage}
    (h : List.Forall₂ SameUpToImportOrder pkgs pkgs') :
    collectStep r pkgs d st p = collectStep r pkgs' d st p := by
  by_cases hb : filepathBase p = "go.mod"
  · rcases hr : r p with e | δ
    · rw [collectStep_mod_error r pkgs d st p e hb hr,
        collectStep_mod_error r pkgs' d st p e hb hr]
    · rw [collectStep_mod_ok r pkgs d st p δ hb hr,
        collectStep_mod_ok r pkgs' d st p δ hb hr, attributeUpd_congr d p st.1 h]
  · rw [collectStep_not_mod r pkgs d st p hb, collectStep_not_mod r pkgs' d st p hb,
      attributeUpd_congr d p st.1 h]

/-- Folding pointwise-equal `Except` step functions gives equal results. -/
theorem foldlM_except_congr {α β : Type} (f g : β → α → Except String β)
    (h : ∀ st a, f st a = g st a) :
    ∀ (l : List α) (st : β), l.foldlM f st = l.foldlM g st := by
  intro l
  induction l with
  | nil => intro st; rfl
  | cons a t ih =>
    intro st
    rw [List.foldlM_cons, List.foldlM_cons, h st a]
    cases hga : g st a with
    | error e => rw [exceptBind_error, exceptBind_error]
    | ok v =>
      rw [exceptBind_ok, exceptBind_ok]
      exact ih v

/-- A phase-2 step is the same for packages equal up to import order. -/
theorem phase2Step_congr (cm acc : Finset String) {P Q : GoPackage}
    (h : SameUpToImportOrder P Q) :
    phase2Step cm acc P = phase2Step cm acc Q := by
  have hi : isChangedFromImports P.imports cm acc =
      isChangedFromImports Q.imports cm acc :=
    any_perm _ h.2.2.2.2
  rw [phase2Step, phase2Step, h.1, hi]

/-- Phase 2 is the same for lists equal up to import order. -/
theorem phase2_congr (cm : Finset String) {pkgs pkgs' : List GoPackage}
    (h : List.Forall₂ SameUpToImportOrder pkgs pkgs') :
    ∀ s, phase2 pkgs cm s = phase2 pkgs' cm s := by
  induction h with
  | nil => intro s; rfl
  | @cons a b l1 l2 hab hrest ih =>
    intro s
    rw [phase2_cons, phase2_cons, phase2Step_congr cm s hab, ih]

/-- C6: the impact computation is deterministic: two runs on identical
inputs that observe the (unordered) imports maps in any two iteration
orders produce the same impact set. -/
theorem c6_determinism (r : String → Except String (Finset String))
    (repoDir : String) (files : List String) (pkgs pkgs' : List GoPackage)
    (h : List.Forall₂ SameUpToImportOrder pkgs pkgs') :
    getChangedPackagesCore r pkgs repoDir files =
      getChangedPackagesCore r pkgs' repoDir files := by
  rw [getChangedPackagesCore, getChangedPackagesCore, collectChanges, collectChanges,
    foldlM_except_congr _ _ (fun st p => collectStep_congr r repoDir st p h) files
      (∅, ∅)]
  cases hc : files.foldlM (collectStep r pkgs' repoDir) (∅, ∅) with
  | error e => rw [exceptBind_error, exceptBind_error]
  | ok res =>
    rw [exceptBind_ok, exceptBind_ok, phase2_congr res.2 h res.1]

/-- Witness for C6: the package `p` with its two imports observed in
either order yields the same result. -/
theorem c6_determinism_witness :
    getChangedPackagesCore okResolver [pkgImp1] "/repo" ["p/p.go"] =
      getChangedPackagesCore okResolver [pkgImp2] "/repo" ["p/p.go"] :=
  c6_determinism okResolver "/repo" ["p/p.go"] [pkgImp1] [pkgImp2]
    (List.Forall₂.cons
      ⟨rfl, rfl, rfl, rfl, List.Perm.swap ("y", some "example.com/m") ("x", none) []⟩
      List.Forall₂.nil)

/-- The impact computation succeeds exactly when collection does. -/
theorem core_ok_iff (r : String → Except String (Finset String))
    (pkgs : List GoPackage) (d : String) (files : List String) :
    (∃ S, getChangedPackagesCore r pkgs d files = .ok S) ↔
      ∃ res, collectChanges r pkgs d files = .ok res := by
  rw [getChangedPackagesCore]
  constructor
  · rintro ⟨S, hS⟩
    cases hc : collectChanges r pkgs d files with
    | error e => rw [hc, exceptBind_error] at hS; cases hS
    | ok res => exact ⟨res, rfl⟩
  · rintro ⟨res, h⟩
    refine ⟨phase2 pkgs res.2 res.1, ?_⟩
    rw [h, exceptBind_ok]
    rfl

/-- The first match in the reversed deduplicated list is the first match
in the reversed list: deduplication keeps the last occurrence of each
element in place. -/
theorem find?_reverse_dedup (l : List String) (f : String → Bool) :
    l.dedup.reverse.find? f = l.reverse.find? f := by
  induction l with
  | nil => rfl
  | cons x t ih =>
    rw [List.reverse_cons, List.find?_append]
    by_cases hx : x ∈ t
    · rw [List.dedup_cons_of_mem hx, ih]
      cases hfind : t.reverse.find? f with
      | none =>
        rw [List.find?_eq_none] at hfind
        have hfx := hfind x (List.mem_reverse.mpr hx)
        rw [Option.none_or, List.find?_cons_of_neg _ hfx]
        rfl
      | some q => rw [Option.or_some]
    · rw [List.dedup_cons_of_not_mem hx, List.reverse_cons, List.find?_append, ih]

/-- C7: the changed-file list is consumed as a set: running over the
list or over its deduplication succeeds in the same cases and yields the
same impact set. -/
theorem c7_dedup_insensitive (r : String → Except String (Finset String))
    (pkgs : List GoPackage) (repoDir : String) (files : List String) :
    ((∃ S, getChangedPackagesCore r pkgs repoDir files = .ok S) ↔
      (∃ S, getChangedPackagesCore r pkgs repoDir files.dedup = .ok S))
    ∧ ∀ S S', getChangedPackagesCore r pkgs repoDir files = .ok S →
        getChangedPackagesCore r pkgs repoDir files.dedup = .ok S' → S = S' := by
  constructor
  · rw [core_ok_iff, core_ok_iff, collectChanges, collectChanges,
      collectFold_ok_iff, collectFold_ok_iff]
    constructor
    · intro h p hp
      exact h p (List.mem_dedup.mp hp)
    · intro h p hp
      exact h p (List.mem_dedup.mpr hp)
  · intro S S' hS hS'
    cases hc : collectChanges r pkgs repoDir files with
    | error e => rw [getChangedPackagesCore, hc, exceptBind_error] at hS; cases hS
    | ok res =>
      cases hc' : collectChanges r pkgs repoDir files.dedup with
      | error e =>
        rw [getChangedPackagesCore, hc', exceptBind_error] at hS'
        cases hS'
      | ok res' =>
        rw [getChangedPackagesCore, hc, exceptBind_ok] at hS
        rw [getChangedPackagesCore, hc', exceptBind_ok] at hS'
        have hSeq : S = phase2 pkgs res.2 res.1 := by
          have h' : Except.ok (phase2 pkgs res.2 res.1) = Except.ok S := hS
          injection h' with h''
          exact h''.symm
        have hS'eq : S' = phase2 pkgs res'.2 res'.1 := by
          have h' : Except.ok (phase2 pkgs res'.2 res'.1) = Except.ok S' := hS'
          injection h' with h''
          exact h''.symm
        rw [collectChanges] at hc hc'
        have hcp : res.1 = res'.1 := by
          apply Finset.ext
          intro x
          rw [collectFold_cp_mem r pkgs repoDir files _ _ hc x,
            collectFold_cp_mem r pkgs repoDir files.dedup _ _ hc' x]
          simp only [Finset.not_mem_empty, false_or]
          constructor
          · rintro ⟨p, hp, hrest⟩
            exact ⟨p, List.mem_dedup.mpr hp, hrest⟩
          · rintro ⟨p, hp, hrest⟩
            exact ⟨p, List.mem_dedup.mp hp, hrest⟩
        have hcm : res.2 = res'.2 := by
          have h1 := collectFold_cm r pkgs repoDir files _ _ hc
          have h2 := collectFold_cm r pkgs repoDir files.dedup _ _ hc'
          cases hfind : files.reverse.find? isManifest with
          | none =>
            have hfind' : files.dedup.reverse.find? isManifest = none := by
              rw [find?_reverse_dedup]
              exact hfind
            rw [h1.1 hfind, h2.1 hfind']
          | some q =>
            have hfind' : files.dedup.reverse.find? isManifest = some q := by
              rw [find?_reverse_dedup]
              exact hfind
            have e1 := h1.2 q hfind
            have e2 := h2.2 q hfind'
            rw [e1] at e2
            injection e2
        rw [hSeq, hS'eq, hcp, hcm]

/-- Witness for C7: the duplicated changed-file list over the packages
`c`, `b`, `a` succeeds, so does its deduplication, and the two runs
produce the same impact set. -/
theorem c7_dedup_insensitive_witness :
    (∃ S, getChangedPackagesCore okResolver pkgsCBA "/repo"
        ["c/file.go", "c/file.go"].dedup = .ok S)
    ∧ phase2 pkgsCBA ∅ (insert "c" (insert "c" ∅)) =
        phase2 pkgsCBA ∅ (insert "c" ∅) :=
  ⟨(c7_dedup_insensitive okResolver pkgsCBA "/repo" ["c/file.go", "c/file.go"]).1.mp
      ⟨phase2 pkgsCBA ∅ (insert "c" (insert "c" ∅)), rfl⟩,
    (c7_dedup_insensitive okResolver pkgsCBA "/repo" ["c/file.go", "c/file.go"]).2
      _ _ rfl rfl⟩

/-- Witness for C9: the nested manifest path `sub/mod/go.mod` triggers
the resolver (whose result replaces the mods set) while attribution
still runs on the same path. -/
theorem c9_manifest_by_basename_witness :
    collectStep okResolver pkgsCBA "/repo" ({"seed"}, {"mod"}) "sub/mod/go.mod" =
      .ok (attributeUpd pkgsCBA "/repo" "sub/mod/go.mod" {"seed"}, ∅) :=
  (c9_manifest_by_basename okResolver pkgsCBA "/repo" ({"seed"}, {"mod"})
    "sub/mod/go.mod").2 (by decide) ∅ rfl

end GoChangedPkgs

namespace GoChangedPkgsFlag

/-- C10: `SlogLevelValue.Set` succeeds exactly on the four names
`debug`, `info`, `warn`, `error`, storing the corresponding `slog.Level`
(-4, 0, 4, 8); on any other string it reports an error and leaves the
stored level unchanged. -/
theorem c10_log_level_set (v : SlogLevelValue) (value : String) :
    ((SlogLevelValue.set v value).2 = none ↔ value ∈ levelNames)
    ∧ (SlogLevelValue.set v "debug" = (⟨-4⟩, none)
        ∧ SlogLevelValue.set v "info" = (⟨0⟩, none)
        ∧ SlogLevelValue.set v "warn" = (⟨4⟩, none)
        ∧ SlogLevelValue.set v "error" = (⟨8⟩, none))
    ∧ (value ∉ levelNames →
        (SlogLevelValue.set v value).1 = v ∧ (SlogLevelValue.set v value).2 ≠ none) := by
  refine ⟨?_, ⟨rfl, rfl, rfl, rfl⟩, ?_⟩
  · by_cases h : value ∈ levelNames <;> simp [SlogLevelValue.set, h]
  · intro h
    simp [SlogLevelValue.set, h]

/-- Witness for C10: setting the unrecognised name `bogus` on a value
holding level 4 leaves level 4 stored and reports an error. -/
theorem c10_log_level_set_witness :
    (SlogLevelValue.set ⟨4⟩ "bogus").1 = ⟨4⟩ ∧
      (SlogLevelValue.set ⟨4⟩ "bogus").2 ≠ none :=
  (c10_log_level_set ⟨4⟩ "bogus").2.2 (by decide)

end GoChangedPkgsFlag
